import Mathlib

/-
Verification of the single-pass textual repair tool
(src/backend/scripts/archive/fix-ai-permission-controller.py).

The script scans a list of lines.  It tracks the most recent line matching
the context-header pattern, detects lines containing the malformed
call fragment, replaces a detected line by a canonical replacement line,
then discards following lines until it finds two consecutive lines that
are each a lone closing brace after stripping whitespace; it re-emits a
single closing-brace line and resumes scanning after the pair.

Machine strings are modelled as Lean String; operations on them are
modelled at the character-list level (String.data).  Python str.strip and
the \x5cw character class are modelled with Char.isWhitespace and
ASCII alphanumerics plus underscore respectively.
-/

namespace PFA

/-- Single-quote character (code point 39); the script's literals contain
it and we build them by concatenation instead of embedding the character
in Lean string literals. -/
def sq : Char := Char.ofNat 39

/-- One-character string holding the single quote. -/
def sqs : String := String.mk [sq]

/-- Closing-brace character (code point 125). -/
def rb : Char := Char.ofNat 125

/-- Strip whitespace from both ends of a character list; model of Python
str.strip() as used in the script (line.strip()). -/
def stripChars (l : List Char) : List Char :=
  ((l.dropWhile Char.isWhitespace).reverse.dropWhile Char.isWhitespace).reverse

/-- Model of Python line.strip() on strings. -/
def stripStr (s : String) : String := String.mk (stripChars s.data)

/-- The one-character string consisting of a closing brace. -/
def braceStr : String := "\x7d"

/-- Model of the script's test lines[i].strip() == the closing brace. -/
def isLoneBrace (l : String) : Bool := stripStr l == braceStr

/-- Model of the regex character class \x5cw (word character):
ASCII letter, digit or underscore. -/
def isWordChar (c : Char) : Bool := c.isAlphanum || c == '_'

/-- Literal prefix of the context-header regex
(export async function, then a space). -/
def headerLit : String := "export async function "

/-- Remove pat as a literal prefix of s, returning the remainder,
or none when pat is not a prefix. -/
def dropPre : List Char → List Char → Option (List Char)
  | [], s => some s
  | _ :: _, [] => none
  | a :: as, b :: bs => if a == b then dropPre as bs else none

/-- Model of re.match applied to the header pattern: the line must start
with the literal header text, followed by one or more word characters
(the captured name), followed by an opening parenthesis.  Returns the
captured name.  A greedy match of one-or-more word characters followed by
a parenthesis succeeds exactly when the maximal word-character run is
non-empty and is immediately followed by the parenthesis, which is what
this function tests. -/
def headerName (l : String) : Option String :=
  match dropPre headerLit.data l.data with
  | none => none
  | some r =>
    let nm := r.takeWhile isWordChar
    if nm.isEmpty then none
    else
      match r.drop nm.length with
      | c :: _ => if c == '(' then some (String.mk nm) else none
      | [] => none

/-- Context update performed on every scanned line: the script overwrites
current_function whenever the header regex matches, otherwise keeps it. -/
def updCtx (l : String) (c : Option String) : Option String :=
  match headerName l with
  | some n => some n
  | none => c

/-- Boolean test that p is a (literal) prefix of s, on character lists. -/
def listPre : List Char → List Char → Bool
  | [], _ => true
  | _ :: _, [] => false
  | a :: as, b :: bs => a == b && listPre as bs

/-- Boolean test that p occurs as a contiguous substring starting at some
position of s. -/
def subAt (p : List Char) : List Char → Bool
  | [] => listPre p []
  | c :: rest => listPre p (c :: rest) || subAt p rest

/-- Model of the Python substring test (pat in s). -/
def strContains (s pat : String) : Bool := subAt pat.data s.data

/-- The malformed-call fragment searched for by the script:
handleControllerError(error, res, then a space, a quote and a comma. -/
def badSig : String := "handleControllerError(error, res, " ++ sqs ++ ","

/-- Detector for the malformed line (substring containment, as in the
script's if badSig in line). -/
def isMalformed (l : String) : Bool := strContains l badSig

/-- Fixed left part of the replacement line built by the script's
f-string, up to and including the context prefix and the dot. -/
def replA : String :=
  "    handleControllerError(error, res, " ++ sqs ++ "AiPermissionController."

/-- Fixed right part of the replacement line (closing quote and call
terminator). -/
def replB : String := sqs ++ ");"

/-- Rendering of current_function inside the f-string: Python renders the
value None as the text None, and a captured name as itself. -/
def renderCtx : Option String → String
  | some n => n
  | none => "None"

/-- The canonical replacement line emitted for a detected malformed line. -/
def replLine (c : Option String) : String := replA ++ renderCtx c ++ replB

/-- The single folded closing-brace line emitted when the brace pair is
found: two spaces and a closing brace. -/
def closeLine : String := "  \x7d"

/-- Core scan of the script.  The Bool is the engine mode: false is
scanning (default), true is repairing (searching for the double closing
brace after a detection).  In scanning mode each line first updates the
context, then either triggers a repair (when malformed) or is copied
verbatim.  In repairing mode lines are discarded until two consecutive
lone-closing-brace lines are found; then one closing line is emitted and
the scan resumes after the pair; if the input ends first, everything to
the end of input is discarded. -/
def run : List String → Option String → Bool → List String
  | [], _, _ => []
  | l :: rest, cur, false =>
    if isMalformed l then
      replLine (updCtx l cur) :: run rest (updCtx l cur) true
    else
      l :: run rest (updCtx l cur) false
  | a :: rest, cur, true =>
    match rest with
    | [] => []
    | b :: rest2 =>
      if isLoneBrace a && isLoneBrace b then closeLine :: run rest2 cur false
      else run (b :: rest2) cur true

/-- The whole repair pass on a list of lines, started like the script with
current_function = None and in scanning mode. -/
def fixPass (ls : List String) : List String := run ls none false

/-- The nine input lines of the spec's example scenario. -/
def exLines : List String := [
  "export async function getItem(req, res) \x7b",
  "  try \x7b",
  "    doWork();",
  "  \x7d catch (error) \x7b",
  "    handleControllerError(error, res, " ++ sqs ++ ",",
  "    extraJunk",
  "  \x7d",
  "  \x7d",
  "\x7d" ]

/-- The seven output lines the spec's example scenario claims, whose fifth
line carries the message Controller.getItem. -/
def exSpecOut : List String := [
  "export async function getItem(req, res) \x7b",
  "  try \x7b",
  "    doWork();",
  "  \x7d catch (error) \x7b",
  "    handleControllerError(error, res, " ++ sqs ++ "Controller.getItem" ++ sqs ++ ");",
  "  \x7d",
  "\x7d" ]

/-- The seven output lines the script actually produces on the example
scenario: identical to the spec's expectation except that the message
argument is AiPermissionController.getItem. -/
def exCodeOut : List String := [
  "export async function getItem(req, res) \x7b",
  "  try \x7b",
  "    doWork();",
  "  \x7d catch (error) \x7b",
  "    handleControllerError(error, res, " ++ sqs ++ "AiPermissionController.getItem" ++ sqs ++ ");",
  "  \x7d",
  "\x7d" ]

/-- No two consecutive elements of the list are both lone closing-brace
lines (used to characterise where the repairing scan finds, or fails to
find, its exit pair). -/
def noPairUpto : List String → Bool
  | a :: b :: rest => !(isLoneBrace a && isLoneBrace b) && noPairUpto (b :: rest)
  | _ => true

/-- Number of lone closing-brace lines in a list of lines. -/
def countBrace (ls : List String) : Nat := ls.countP (fun l => isLoneBrace l)

/-- Context value after scanning a block of lines in scanning mode. -/
def ctxFold (cur : Option String) (ls : List String) : Option String :=
  ls.foldl (fun c l => updCtx l c) cur

/-- Input lines lying outside every detected malformed region: the lines
the scan copies verbatim.  Mirrors the modes of the scan but keeps input
lines instead of producing output. -/
def keptLines : List String → Bool → List String
  | [], _ => []
  | l :: rest, false =>
    if isMalformed l then keptLines rest true else l :: keptLines rest false
  | a :: rest, true =>
    match rest with
    | [] => []
    | b :: rest2 =>
      if isLoneBrace a && isLoneBrace b then keptLines rest2 false
      else keptLines (b :: rest2) true

/-- Segment of the partition of the input: either a single line copied
verbatim, or the full block of lines of one detected malformed region
(the triggering line together with every line consumed by its repair). -/
abbrev Seg := String ⊕ List String

/-- Partition of the input lines into verbatim-copied singletons and
repaired regions.  The accumulator collects the lines of the region being
consumed while in repairing mode. -/
def segsAux : List String → Bool → List String → List Seg
  | [], false, _ => []
  | l :: rest, false, _ =>
    if isMalformed l then segsAux rest true [l]
    else Sum.inl l :: segsAux rest false []
  | [], true, acc => [Sum.inr acc]
  | a :: rest, true, acc =>
    match rest with
    | [] => [Sum.inr (acc ++ [a])]
    | b :: rest2 =>
      if isLoneBrace a && isLoneBrace b then
        Sum.inr (acc ++ [a, b]) :: segsAux rest2 false []
      else segsAux (b :: rest2) true (acc ++ [a])

/-- Concatenation of the lines of all segments, in order. -/
def segJoin : List Seg → List String
  | [] => []
  | Sum.inl l :: s => l :: segJoin s
  | Sum.inr r :: s => r ++ segJoin s

/-- The verbatim-copied lines of a segment list, in order. -/
def segLefts : List Seg → List String
  | [] => []
  | Sum.inl l :: s => l :: segLefts s
  | Sum.inr _ :: s => segLefts s

/-- State of the script's outer while loop: scan index i, the tracked
current_function, and the accumulated output lines new_lines. -/
structure St where
  i : Nat
  cur : Option String
  out : List String

/-- Model of the script's inner while loop: starting at index j, advance
until some index k holds a lone closing-brace line with k + 1 in range
also a lone closing-brace line; return k + 1 (the index the loop variable
holds after the break), or none when the input is exhausted first. -/
def innerScan (lines : List String) (j : Nat) : Option Nat :=
  if j < lines.length then
    if isLoneBrace (lines.getD j (String.mk [])) &&
       decide (j + 1 < lines.length) &&
       isLoneBrace (lines.getD (j + 1) (String.mk [])) then
      some (j + 1)
    else innerScan lines (j + 1)
  else none
termination_by lines.length - j

/-- One iteration of the script's outer while loop, assuming s.i is in
range: read the line, update the context, then either copy the line, or
(on a malformed line) emit the replacement, run the inner loop and emit
the single folded closing line when the pair is found; the final increment
of the loop variable is included. -/
def outerStep (lines : List String) (s : St) : St :=
  let l := lines.getD s.i (String.mk [])
  let c2 := updCtx l s.cur
  if isMalformed l then
    match innerScan lines (s.i + 1) with
    | some k => ⟨k + 1, c2, s.out ++ [replLine c2, closeLine]⟩
    | none => ⟨lines.length + 1, c2, s.out ++ [replLine c2]⟩
  else ⟨s.i + 1, c2, s.out ++ [l]⟩

/-- Fuel-bounded iteration of the outer loop: run outerStep while the
index is in range, at most the given number of times. -/
def loopRun (lines : List String) : Nat → St → St
  | 0, s => s
  | f + 1, s =>
    if s.i < lines.length then loopRun lines f (outerStep lines s) else s

/-! Equation lemmas for the scan. -/

theorem run_nil (cur : Option String) (b : Bool) : run [] cur b = [] := rfl

theorem run_false_cons (l : String) (rest : List String) (cur : Option String) :
    run (l :: rest) cur false =
      if isMalformed l then replLine (updCtx l cur) :: run rest (updCtx l cur) true
      else l :: run rest (updCtx l cur) false := rfl

theorem run_true_one (a : String) (cur : Option String) : run [a] cur true = [] := rfl

theorem run_true_cons (a b : String) (rest2 : List String) (cur : Option String) :
    run (a :: b :: rest2) cur true =
      if isLoneBrace a && isLoneBrace b then closeLine :: run rest2 cur false
      else run (b :: rest2) cur true := rfl

theorem keptLines_nil (b : Bool) : keptLines [] b = [] := rfl

theorem keptLines_false_cons (l : String) (rest : List String) :
    keptLines (l :: rest) false =
      if isMalformed l then keptLines rest true else l :: keptLines rest false := rfl

theorem keptLines_true_one (a : String) : keptLines [a] true = [] := rfl

theorem keptLines_true_cons (a b : String) (rest2 : List String) :
    keptLines (a :: b :: rest2) true =
      if isLoneBrace a && isLoneBrace b then keptLines rest2 false
      else keptLines (b :: rest2) true := rfl

theorem segsAux_false_nil (acc : List String) : segsAux [] false acc = [] := rfl

theorem segsAux_false_cons (l : String) (rest acc : List String) :
    segsAux (l :: rest) false acc =
      if isMalformed l then segsAux rest true [l]
      else Sum.inl l :: segsAux rest false [] := rfl

theorem segsAux_true_nil (acc : List String) : segsAux [] true acc = [Sum.inr acc] := rfl

theorem segsAux_true_one (a : String) (acc : List String) :
    segsAux [a] true acc = [Sum.inr (acc ++ [a])] := rfl

theorem segsAux_true_cons (a b : String) (rest2 acc : List String) :
    segsAux (a :: b :: rest2) true acc =
      if isLoneBrace a && isLoneBrace b then
        Sum.inr (acc ++ [a, b]) :: segsAux rest2 false []
      else segsAux (b :: rest2) true (acc ++ [a]) := rfl

/-! Facts about the strip model and the synthesized lines. -/

theorem sqs_data : sqs.data = [sq] := rfl

/-- Right-trimming, the second half of stripChars. -/
def rightTrim (l : List Char) : List Char :=
  (l.reverse.dropWhile Char.isWhitespace).reverse

theorem stripChars_eq (l : List Char) :
    stripChars l = rightTrim (l.dropWhile Char.isWhitespace) := rfl

theorem rightTrim_cons_of_not_ws (a : Char) (l : List Char)
    (h : Char.isWhitespace a = false) : rightTrim (a :: l) = a :: rightTrim l := by
  unfold rightTrim
  rw [show (a :: l).reverse = l.reverse ++ [a] by simp, List.dropWhile_append]
  by_cases he : l.reverse.dropWhile Char.isWhitespace = []
  · simp [he, List.dropWhile_cons, h]
  · have hb : (l.reverse.dropWhile Char.isWhitespace).isEmpty = false := by
      simp [List.isEmpty_eq_false, he]
    simp [hb]

theorem stripChars_spaces_head (t : List Char) (a : Char)
    (ha : Char.isWhitespace a = false) (l : List Char)
    (hl : ∀ c ∈ l, Char.isWhitespace c = true) :
    stripChars (l ++ a :: t) = a :: rightTrim t := by
  rw [stripChars_eq, List.dropWhile_append]
  have h1 : l.dropWhile Char.isWhitespace = [] := List.dropWhile_eq_nil_iff.mpr hl
  simp [h1, List.dropWhile_cons, ha, rightTrim_cons_of_not_ws _ _ ha]

theorem replLine_data (c : Option String) :
    (replLine c).data = replA.data ++ ((renderCtx c).data ++ replB.data) := by
  simp [replLine, String.data_append]

/-- The replacement line is never a lone closing-brace line: after
stripping it starts with the letter h. -/
theorem replLine_not_lone (c : Option String) : isLoneBrace (replLine c) = false := by
  have hdata : (replLine c).data =
      (List.replicate 4 ' ') ++ 'h' ::
        ("andleControllerError(error, res, ".data ++ [sq] ++
          "AiPermissionController.".data ++ ((renderCtx c).data ++ replB.data)) := by
    rw [replLine_data]
    have : replA.data = (List.replicate 4 ' ') ++ 'h' ::
        ("andleControllerError(error, res, ".data ++ [sq] ++
          "AiPermissionController.".data) := by
      simp [replA, String.data_append, sqs_data]
    rw [this]
    simp
  have hstrip : stripChars (replLine c).data = 'h' :: rightTrim
      ("andleControllerError(error, res, ".data ++ [sq] ++
        "AiPermissionController.".data ++ ((renderCtx c).data ++ replB.data)) := by
    rw [hdata]
    exact stripChars_spaces_head _ 'h' (by decide) _ (by
      intro ch hch
      simp [List.mem_replicate] at hch
      simp [hch])
  have : isLoneBrace (replLine c) = true → False := by
    intro h
    unfold isLoneBrace at h
    rw [beq_iff_eq] at h
    have hd : (stripStr (replLine c)).data = braceStr.data := by rw [h]
    unfold stripStr at hd
    rw [hstrip] at hd
    have : 'h' = rb := by
      have : braceStr.data = [rb] := rfl
      rw [this] at hd
      exact (List.cons.injEq _ _ _ _).mp hd |>.1
    exact absurd this (by decide)
  cases hb : isLoneBrace (replLine c) with
  | false => rfl
  | true => exact absurd (this hb) (fun x => x)

theorem closeLine_not_malformed : isMalformed closeLine = false := by decide

theorem closeLine_lone : isLoneBrace closeLine = true := by decide

/-! The replacement line never matches the malformed-signature detector.
The signature ends with a quote immediately followed by a comma; in a
replacement line every quote is followed by the letter A or a closing
parenthesis, provided the embedded context name consists of word
characters only (which every tracked context does). -/

/-- Adjacency test: the characters a and b occur consecutively in l. -/
def hasAdj (a b : Char) : List Char → Bool
  | x :: y :: rest => (x == a && y == b) || hasAdj a b (y :: rest)
  | _ => false

theorem listPre_ex {p s : List Char} (h : listPre p s = true) : ∃ t, s = p ++ t := by
  induction p generalizing s with
  | nil => exact ⟨s, rfl⟩
  | cons a as ih =>
    cases s with
    | nil => exact absurd h (by simp [listPre])
    | cons b bs =>
      unfold listPre at h
      rw [Bool.and_eq_true, beq_iff_eq] at h
      obtain ⟨t, ht⟩ := ih h.2
      exact ⟨t, by rw [h.1, ht]; rfl⟩

theorem hasAdj_mid (a b : Char) (p t : List Char) :
    hasAdj a b (p ++ a :: b :: t) = true := by
  induction p with
  | nil => simp [hasAdj]
  | cons x xs ih =>
    cases hx : xs ++ a :: b :: t with
    | nil => exact absurd hx (by simp)
    | cons y r =>
      have : hasAdj a b (x :: (xs ++ a :: b :: t)) =
          ((x == a && y == b) || hasAdj a b (y :: r)) := by rw [hx]; rfl
      rw [show x :: xs ++ a :: b :: t = x :: (xs ++ a :: b :: t) from rfl, this, ← hx, ih]
      simp

theorem hasAdj_cons_of (a b c : Char) (l : List Char) (h : hasAdj a b l = true) :
    hasAdj a b (c :: l) = true := by
  cases l with
  | nil => exact absurd h (by simp [hasAdj])
  | cons y r =>
    show ((c == a && y == b) || hasAdj a b (y :: r)) = true
    rw [h]; simp

theorem hasAdj_of_subAt {p : List Char} {a b : Char} {s : List Char}
    (h : subAt (p ++ [a, b]) s = true) : hasAdj a b s = true := by
  induction s with
  | nil =>
    unfold subAt at h
    have : listPre (p ++ [a, b]) [] = false := by
      cases p with
      | nil => rfl
      | cons x xs => rfl
    rw [this] at h
    exact absurd h (by simp)
  | cons c rest ih =>
    unfold subAt at h
    rw [Bool.or_eq_true] at h
    cases h with
    | inl hpre =>
      obtain ⟨t, ht⟩ := listPre_ex hpre
      rw [ht, List.append_assoc]
      exact hasAdj_mid a b p (t)
    | inr hrec => exact hasAdj_cons_of a b c rest (ih hrec)

theorem hasAdj_append_not_mem (a b : Char) (xs ys : List Char) (hx : a ∉ xs) :
    hasAdj a b (xs ++ ys) = hasAdj a b ys := by
  induction xs with
  | nil => rfl
  | cons x xs' ih =>
    have hxa : (x == a) = false := by
      rw [beq_eq_false_iff_ne]
      intro he
      exact hx (by rw [he]; simp)
    cases hc : xs' ++ ys with
    | nil =>
      have hys : ys = [] := by
        rcases List.append_eq_nil.mp hc with ⟨_, h2⟩
        exact h2
      show hasAdj a b (x :: (xs' ++ ys)) = hasAdj a b ys
      rw [hc, hys]
      rfl
    | cons y r =>
      show hasAdj a b (x :: (xs' ++ ys)) = hasAdj a b ys
      rw [hc]
      show ((x == a && y == b) || hasAdj a b (y :: r)) = hasAdj a b ys
      rw [hxa, ← hc, ih (fun hm => hx (by simp [hm]))]
      simp

theorem badSig_data : badSig.data =
    "handleControllerError(error, res, ".data ++ [sq, ','] := by
  simp [badSig, String.data_append, sqs_data]

/-- Context names made of word characters never contain a quote, so the
replacement line has no quote-comma adjacency and hence does not contain
the malformed signature. -/
theorem replLine_not_malformed (c : Option String)
    (hc : ∀ ch ∈ (renderCtx c).data, isWordChar ch = true) :
    isMalformed (replLine c) = false := by
  have hadj : hasAdj sq ',' (replLine c).data = false := by
    have hdata : (replLine c).data =
        "    handleControllerError(error, res, ".data ++
          (sq :: ("AiPermissionController.".data ++
            ((renderCtx c).data ++ (sq :: ");".data)))) := by
      rw [replLine_data]
      have ha : replA.data = "    handleControllerError(error, res, ".data ++
          (sq :: "AiPermissionController.".data) := by
        simp [replA, String.data_append, sqs_data]
      have hb : replB.data = sq :: ");".data := by
        simp [replB, String.data_append, sqs_data]
      rw [ha, hb]
      simp
    rw [hdata, hasAdj_append_not_mem _ _ _ _ (by decide)]
    show hasAdj sq ',' (sq :: ('A' :: ("iPermissionController.".data ++
      ((renderCtx c).data ++ (sq :: ");".data))))) = false
    show ((sq == sq && 'A' == ',') ||
      hasAdj sq ',' ('A' :: ("iPermissionController.".data ++
        ((renderCtx c).data ++ (sq :: ");".data))))) = false
    rw [show ('A' == ',') = false from by decide, Bool.and_false, Bool.false_or]
    rw [show ('A' : Char) :: ("iPermissionController.".data ++
        ((renderCtx c).data ++ (sq :: ");".data))) =
        "AiPermissionController.".data ++ ((renderCtx c).data ++ (sq :: ");".data))
      from rfl]
    rw [hasAdj_append_not_mem _ _ _ _ (by decide)]
    rw [hasAdj_append_not_mem _ _ _ _ (by
      intro hm
      have := hc sq hm
      exact absurd this (by decide))]
    decide
  cases hm : isMalformed (replLine c) with
  | false => rfl
  | true =>
    exfalso
    unfold isMalformed strContains at hm
    rw [badSig_data] at hm
    have : subAt ("handleControllerError(error, res, ".data ++ [sq, ','])
        (replLine c).data = true := hm
    have h2 := hasAdj_of_subAt this
    rw [hadj] at h2
    exact absurd h2 (by simp)

/-! Context values reachable during a scan: None, or a name captured by
the header pattern, which consists of word characters only. -/

/-- The tracked context is well formed: absent, or all word characters. -/
def ctxOk (c : Option String) : Prop :=
  ∀ s, c = some s → ∀ ch ∈ s.data, isWordChar ch = true

theorem ctxOk_none : ctxOk none := by
  intro s h
  exact absurd h (by simp)

theorem headerName_wordChars {l : String} {n : String} (h : headerName l = some n) :
    ∀ ch ∈ n.data, isWordChar ch = true := by
  unfold headerName at h
  cases hd : dropPre headerLit.data l.data with
  | none => rw [hd] at h; exact absurd h (by simp)
  | some r =>
    rw [hd] at h
    simp only [] at h
    by_cases he : (r.takeWhile isWordChar).isEmpty
    · rw [if_pos he] at h
      exact absurd h (by simp)
    · rw [if_neg he] at h
      cases hr : r.drop (r.takeWhile isWordChar).length with
      | nil => rw [hr] at h; exact absurd h (by simp)
      | cons c cs =>
        rw [hr] at h
        replace h : (if (c == '(') = true then
            some (String.mk (r.takeWhile isWordChar)) else none) = some n := h
        by_cases hc : (c == '(') = true
        · rw [if_pos hc] at h
          have hn : n = String.mk (r.takeWhile isWordChar) := by
            cases h; rfl
          intro ch hch
          rw [hn] at hch
          exact List.mem_takeWhile_imp hch
        · rw [if_neg hc] at h
          exact absurd h (by simp)

theorem updCtx_ctxOk {l : String} {c : Option String} (h : ctxOk c) :
    ctxOk (updCtx l c) := by
  unfold updCtx
  cases hh : headerName l with
  | none => exact h
  | some n =>
    intro s hs ch hch
    have : n = s := by cases hs; rfl
    exact headerName_wordChars hh ch (this ▸ hch)

theorem ctxFold_ctxOk {c : Option String} (ls : List String) (h : ctxOk c) :
    ctxOk (ctxFold c ls) := by
  induction ls generalizing c with
  | nil => exact h
  | cons l rest ih => exact ih (updCtx_ctxOk h)

theorem renderCtx_wordChars {c : Option String} (h : ctxOk c) :
    ∀ ch ∈ (renderCtx c).data, isWordChar ch = true := by
  cases c with
  | none =>
    intro ch hch
    have : ch ∈ "None".data := hch
    fin_cases this <;> decide
  | some n => exact h n rfl

/-! Structure lemmas for the scan. -/

/-- A block with no malformed line is copied verbatim, the context folding
over it. -/
theorem run_clean_append (pre ls : List String) (cur : Option String)
    (h : ∀ x ∈ pre, isMalformed x = false) :
    run (pre ++ ls) cur false = pre ++ run ls (ctxFold cur pre) false := by
  induction pre generalizing cur with
  | nil => rfl
  | cons p pre' ih =>
    rw [List.cons_append, run_false_cons, if_neg (by simp [h p (by simp)])]
    rw [ih _ (fun x hx => h x (by simp [hx]))]
    rfl

/-- An input with no malformed line at all is returned unchanged. -/
theorem run_id (ls : List String) (cur : Option String)
    (h : ∀ x ∈ ls, isMalformed x = false) : run ls cur false = ls := by
  have := run_clean_append ls [] cur h
  rw [List.append_nil] at this
  rw [this, run_nil, List.append_nil]

/-- Context folding over a block with no header line leaves the context
unchanged. -/
theorem ctxFold_of_no_header (ls : List String) (cur : Option String)
    (h : ∀ x ∈ ls, headerName x = none) : ctxFold cur ls = cur := by
  induction ls generalizing cur with
  | nil => rfl
  | cons l rest ih =>
    show ctxFold (updCtx l cur) rest = cur
    rw [ih _ (fun x hx => h x (by simp [hx]))]
    unfold updCtx
    rw [h l (by simp)]

/-- In repairing mode, when the pair of lone closing-brace lines exists
and no earlier adjacent pair precedes it, the scan discards everything up
to the pair, emits the single folded closing line and resumes after the
pair. -/
theorem run_true_finds (mid : List String) (b1 b2 : String) (post : List String)
    (cur : Option String) (hm : noPairUpto (mid ++ [b1]) = true)
    (h1 : isLoneBrace b1 = true) (h2 : isLoneBrace b2 = true) :
    run (mid ++ b1 :: b2 :: post) cur true = closeLine :: run post cur false := by
  induction mid with
  | nil => rw [List.nil_append, run_true_cons, if_pos (by rw [h1, h2]; rfl)]
  | cons x mid' ih =>
    cases mid' with
    | nil =>
      replace hm : (!(isLoneBrace x && isLoneBrace b1) && noPairUpto [b1]) = true := hm
      rw [Bool.and_eq_true] at hm
      have hx : (isLoneBrace x && isLoneBrace b1) = false := by
        cases hb : (isLoneBrace x && isLoneBrace b1) with
        | false => rfl
        | true => rw [hb] at hm; exact absurd hm.1 (by decide)
      show run (x :: b1 :: b2 :: post) cur true = closeLine :: run post cur false
      rw [run_true_cons, if_neg (by rw [hx]; simp)]
      exact ih rfl
    | cons y mid'' =>
      replace hm : (!(isLoneBrace x && isLoneBrace y) &&
          noPairUpto (y :: (mid'' ++ [b1]))) = true := hm
      rw [Bool.and_eq_true] at hm
      have hx : (isLoneBrace x && isLoneBrace y) = false := by
        cases hb : (isLoneBrace x && isLoneBrace y) with
        | false => rfl
        | true => rw [hb] at hm; exact absurd hm.1 (by decide)
      show run (x :: y :: (mid'' ++ b1 :: b2 :: post)) cur true =
        closeLine :: run post cur false
      rw [run_true_cons, if_neg (by rw [hx]; simp)]
      exact ih hm.2

/-- In repairing mode, when no adjacent pair of lone closing-brace lines
exists anywhere, the scan discards the whole remaining input. -/
theorem run_true_misses (ls : List String) (cur : Option String)
    (h : noPairUpto ls = true) : run ls cur true = [] := by
  induction ls with
  | nil => rfl
  | cons a rest ih =>
    cases rest with
    | nil => exact run_true_one a cur
    | cons b rest2 =>
      unfold noPairUpto at h
      rw [Bool.and_eq_true] at h
      rw [run_true_cons, if_neg (by
        cases hb : (isLoneBrace a && isLoneBrace b) with
        | false => simp
        | true => rw [hb] at h; exact absurd h.1 (by decide))]
      exact ih h.2

/-- Every line the scan outputs is non-malformed: verbatim lines failed
the detector, the closing line is fixed, and replacement lines built from
a well-formed context never match the signature. -/
theorem run_out_not_malformed :
    ∀ n ls (cur : Option String) (b : Bool), ls.length ≤ n → ctxOk cur →
      ∀ x ∈ run ls cur b, isMalformed x = false := by
  intro n
  induction n with
  | zero =>
    intro ls cur b hlen _ x hx
    have : ls = [] := List.length_eq_zero.mp (Nat.le_zero.mp hlen)
    rw [this, run_nil] at hx
    exact absurd hx (by simp)
  | succ n ih =>
    intro ls cur b hlen hcur x hx
    cases ls with
    | nil => rw [run_nil] at hx; exact absurd hx (by simp)
    | cons l rest =>
      cases b with
      | false =>
        rw [run_false_cons] at hx
        by_cases hml : isMalformed l = true
        · rw [if_pos hml] at hx
          rcases List.mem_cons.mp hx with hx1 | hx2
          · rw [hx1]
            exact replLine_not_malformed _
              (renderCtx_wordChars (updCtx_ctxOk hcur))
          · exact ih rest _ true (Nat.le_of_succ_le_succ hlen)
              (updCtx_ctxOk hcur) x hx2
        · rw [if_neg hml] at hx
          rcases List.mem_cons.mp hx with hx1 | hx2
          · rw [hx1]
            exact Bool.not_eq_true _ ▸ hml
          · exact ih rest _ false (Nat.le_of_succ_le_succ hlen)
              (updCtx_ctxOk hcur) x hx2
      | true =>
        cases rest with
        | nil => rw [run_true_one] at hx; exact absurd hx (by simp)
        | cons b2 rest2 =>
          rw [run_true_cons] at hx
          by_cases hp : (isLoneBrace l && isLoneBrace b2) = true
          · rw [if_pos hp] at hx
            rcases List.mem_cons.mp hx with hx1 | hx2
            · rw [hx1]; exact closeLine_not_malformed
            · exact ih rest2 _ false
                (by simp at hlen ⊢; omega) hcur x hx2
          · rw [if_neg hp] at hx
            exact ih (b2 :: rest2) _ true
              (by simp at hlen ⊢; omega) hcur x hx

/-- The lines outside every detected region occur, unchanged and in
order, as a sublist of the scan's output. -/
theorem kept_sublist :
    ∀ n ls (cur : Option String) (b : Bool), ls.length ≤ n →
      List.Sublist (keptLines ls b) (run ls cur b) := by
  intro n
  induction n with
  | zero =>
    intro ls cur b hlen
    have : ls = [] := List.length_eq_zero.mp (Nat.le_zero.mp hlen)
    rw [this, run_nil, keptLines_nil]
  | succ n ih =>
    intro ls cur b hlen
    cases ls with
    | nil => rw [run_nil, keptLines_nil]
    | cons l rest =>
      cases b with
      | false =>
        rw [run_false_cons, keptLines_false_cons]
        by_cases hml : isMalformed l = true
        · rw [if_pos hml, if_pos hml]
          exact List.Sublist.cons _
            (ih rest _ true (Nat.le_of_succ_le_succ hlen))
        · rw [if_neg hml, if_neg hml]
          exact List.Sublist.cons₂ _
            (ih rest _ false (Nat.le_of_succ_le_succ hlen))
      | true =>
        cases rest with
        | nil => rw [run_true_one, keptLines_true_one]
        | cons b2 rest2 =>
          rw [run_true_cons, keptLines_true_cons]
          by_cases hp : (isLoneBrace l && isLoneBrace b2) = true
          · rw [if_pos hp, if_pos hp]
            exact List.Sublist.cons _
              (ih rest2 _ false (by simp at hlen ⊢; omega))
          · rw [if_neg hp, if_neg hp]
            exact ih (b2 :: rest2) _ true (by simp at hlen ⊢; omega)

/-- Joining the segments of the partition recovers the input lines. -/
theorem segJoin_segsAux :
    ∀ n ls (b : Bool) (acc : List String), ls.length ≤ n →
      segJoin (segsAux ls b acc) = (if b then acc else []) ++ ls := by
  intro n
  induction n with
  | zero =>
    intro ls b acc hlen
    have : ls = [] := List.length_eq_zero.mp (Nat.le_zero.mp hlen)
    cases b <;> simp [this, segsAux_false_nil, segsAux_true_nil, segJoin]
  | succ n ih =>
    intro ls b acc hlen
    cases ls with
    | nil =>
      cases b <;> simp [segsAux_false_nil, segsAux_true_nil, segJoin]
    | cons l rest =>
      cases b with
      | false =>
        rw [segsAux_false_cons]
        by_cases hml : isMalformed l = true
        · rw [if_pos hml]
          rw [ih rest true [l] (Nat.le_of_succ_le_succ hlen)]
          simp
        · rw [if_neg hml]
          show l :: segJoin (segsAux rest false []) = [] ++ l :: rest
          rw [ih rest false [] (Nat.le_of_succ_le_succ hlen)]
          simp
      | true =>
        cases rest with
        | nil =>
          rw [segsAux_true_one]
          simp [segJoin]
        | cons b2 rest2 =>
          rw [segsAux_true_cons]
          by_cases hp : (isLoneBrace l && isLoneBrace b2) = true
          · rw [if_pos hp]
            show (acc ++ [l, b2]) ++ segJoin (segsAux rest2 false []) =
              (if true then acc else []) ++ l :: b2 :: rest2
            rw [ih rest2 false [] (by simp at hlen ⊢; omega)]
            simp
          · rw [if_neg hp]
            rw [ih (b2 :: rest2) true (acc ++ [l]) (by simp at hlen ⊢; omega)]
            simp

/-- The verbatim parts of the partition are exactly the kept lines. -/
theorem segLefts_segsAux :
    ∀ n ls (b : Bool) (acc : List String), ls.length ≤ n →
      segLefts (segsAux ls b acc) = keptLines ls b := by
  intro n
  induction n with
  | zero =>
    intro ls b acc hlen
    have : ls = [] := List.length_eq_zero.mp (Nat.le_zero.mp hlen)
    cases b <;> simp [this, segsAux_false_nil, segsAux_true_nil, segLefts, keptLines_nil]
  | succ n ih =>
    intro ls b acc hlen
    cases ls with
    | nil =>
      cases b <;> simp [segsAux_false_nil, segsAux_true_nil, segLefts, keptLines_nil]
    | cons l rest =>
      cases b with
      | false =>
        rw [segsAux_false_cons, keptLines_false_cons]
        by_cases hml : isMalformed l = true
        · rw [if_pos hml, if_pos hml]
          exact ih rest true [l] (Nat.le_of_succ_le_succ hlen)
        · rw [if_neg hml, if_neg hml]
          show l :: segLefts (segsAux rest false []) = l :: keptLines rest false
          rw [ih rest false [] (Nat.le_of_succ_le_succ hlen)]
      | true =>
        cases rest with
        | nil =>
          rw [segsAux_true_one, keptLines_true_one]
          rfl
        | cons b2 rest2 =>
          rw [segsAux_true_cons, keptLines_true_cons]
          by_cases hp : (isLoneBrace l && isLoneBrace b2) = true
          · rw [if_pos hp, if_pos hp]
            show segLefts (segsAux rest2 false []) = keptLines rest2 false
            exact ih rest2 false [] (by simp at hlen ⊢; omega)
          · rw [if_neg hp, if_neg hp]
            exact ih (b2 :: rest2) true (acc ++ [l]) (by simp at hlen ⊢; omega)

/-! Lemmas connecting the index-based loop model to the scan. -/

theorem getD_eq_at {lines : List String} {j : Nat} (h : j < lines.length) :
    lines.getD j (String.mk []) = lines[j] := by
  rw [List.getD_eq_getElem?_getD, List.getElem?_eq_getElem h]
  rfl

theorem innerScan_gt :
    ∀ d (lines : List String) j k, lines.length - j ≤ d →
      innerScan lines j = some k → j < k := by
  intro d
  induction d with
  | zero =>
    intro lines j k hd h
    unfold innerScan at h
    rw [if_neg (by omega)] at h
    exact absurd h (by simp)
  | succ d ih =>
    intro lines j k hd h
    unfold innerScan at h
    by_cases hj : j < lines.length
    · rw [if_pos hj] at h
      by_cases hc : (isLoneBrace (lines.getD j (String.mk [])) &&
          decide (j + 1 < lines.length) &&
          isLoneBrace (lines.getD (j + 1) (String.mk []))) = true
      · rw [if_pos hc] at h
        cases h
        omega
      · rw [if_neg hc] at h
        have := ih lines (j + 1) k (by omega) h
        omega
    · rw [if_neg hj] at h
      exact absurd h (by simp)

theorem innerScan_lt_len :
    ∀ d (lines : List String) j k, lines.length - j ≤ d →
      innerScan lines j = some k → k < lines.length := by
  intro d
  induction d with
  | zero =>
    intro lines j k hd h
    unfold innerScan at h
    rw [if_neg (by omega)] at h
    exact absurd h (by simp)
  | succ d ih =>
    intro lines j k hd h
    unfold innerScan at h
    by_cases hj : j < lines.length
    · rw [if_pos hj] at h
      by_cases hc : (isLoneBrace (lines.getD j (String.mk [])) &&
          decide (j + 1 < lines.length) &&
          isLoneBrace (lines.getD (j + 1) (String.mk []))) = true
      · rw [if_pos hc] at h
        rw [Bool.and_eq_true, Bool.and_eq_true] at hc
        have hlt : j + 1 < lines.length := of_decide_eq_true hc.1.2
        cases h
        exact hlt
      · rw [if_neg hc] at h
        exact ih lines (j + 1) k (by omega) h
    · rw [if_neg hj] at h
      exact absurd h (by simp)

/-- The repairing scan on the suffix starting at index j is governed by
the inner loop model: it emits the folded closing line and resumes after
the found index, or discards everything. -/
theorem run_drop_true :
    ∀ d (lines : List String) j (cur : Option String), lines.length - j ≤ d →
      run (lines.drop j) cur true =
        (match innerScan lines j with
          | some k => closeLine :: run (lines.drop (k + 1)) cur false
          | none => []) := by
  intro d
  induction d with
  | zero =>
    intro lines j cur hd
    have hj : ¬ j < lines.length := by omega
    rw [List.drop_eq_nil_of_le (by omega), run_nil]
    unfold innerScan
    rw [if_neg hj]
  | succ d ih =>
    intro lines j cur hd
    by_cases hj : j < lines.length
    · have hdrop : lines.drop j = lines[j] :: lines.drop (j + 1) :=
        List.drop_eq_getElem_cons hj
      by_cases hj1 : j + 1 < lines.length
      · have hdrop1 : lines.drop (j + 1) = lines[j + 1] :: lines.drop (j + 2) :=
          List.drop_eq_getElem_cons hj1
        rw [hdrop, hdrop1, run_true_cons]
        unfold innerScan
        rw [if_pos hj, getD_eq_at hj, getD_eq_at hj1,
          decide_eq_true_eq.mpr hj1]
        by_cases hc : (isLoneBrace lines[j] && isLoneBrace lines[j + 1]) = true
        · rw [if_pos hc, if_pos (by
            rw [Bool.and_eq_true] at hc
            rw [hc.1, Bool.true_and, Bool.and_eq_true]
            exact ⟨rfl, hc.2⟩)]
        · rw [if_neg hc, if_neg (by
            intro hcc
            rw [Bool.and_eq_true, Bool.and_eq_true] at hcc
            exact hc (by rw [Bool.and_eq_true]; exact ⟨hcc.1.1, hcc.2⟩))]
          rw [← hdrop1]
          exact ih lines (j + 1) cur (by omega)
      · have hdrop1 : lines.drop (j + 1) = [] :=
          List.drop_eq_nil_of_le (by omega)
        rw [hdrop, hdrop1, run_true_one]
        unfold innerScan
        rw [if_pos hj]
        rw [if_neg (by
          intro hcc
          rw [Bool.and_eq_true, Bool.and_eq_true] at hcc
          exact hj1 (of_decide_eq_true hcc.1.2))]
        unfold innerScan
        rw [if_neg (by omega)]
    · rw [List.drop_eq_nil_of_le (by omega), run_nil]
      unfold innerScan
      rw [if_neg hj]

/-- The loop invariant: with enough fuel, iterating the outer step from
index i produces, appended to the accumulated output, exactly the scan of
the remaining suffix, and ends with the index past the input. -/
theorem loopRun_inv :
    ∀ fuel (lines : List String) i (cur : Option String) (out : List String),
      lines.length - i ≤ fuel →
      lines.length ≤ (loopRun lines fuel ⟨i, cur, out⟩).i ∧
      (loopRun lines fuel ⟨i, cur, out⟩).out =
        out ++ run (lines.drop i) cur false := by
  intro fuel
  induction fuel with
  | zero =>
    intro lines i cur out hf
    have hi : lines.length ≤ i := by omega
    show lines.length ≤ (St.mk i cur out).i ∧
      (St.mk i cur out).out = out ++ run (lines.drop i) cur false
    rw [List.drop_eq_nil_of_le hi, run_nil, List.append_nil]
    exact ⟨hi, rfl⟩
  | succ f ih =>
    intro lines i cur out hf
    by_cases hi : i < lines.length
    · have hstep : loopRun lines (f + 1) ⟨i, cur, out⟩ =
          loopRun lines f (outerStep lines ⟨i, cur, out⟩) := by
        have hu : loopRun lines (f + 1) ⟨i, cur, out⟩ =
            if i < lines.length then
              loopRun lines f (outerStep lines ⟨i, cur, out⟩)
            else ⟨i, cur, out⟩ := rfl
        rw [hu, if_pos hi]
      have hdrop : lines.drop i = lines[i] :: lines.drop (i + 1) :=
        List.drop_eq_getElem_cons hi
      have hget : lines.getD i (String.mk []) = lines[i] := getD_eq_at hi
      by_cases hml : isMalformed lines[i] = true
      · cases hscan : innerScan lines (i + 1) with
        | some k =>
          have hki : i + 1 < k + 1 := by
            have := innerScan_gt (lines.length - (i + 1)) lines (i + 1) k
              (by omega) hscan
            omega
          have hkl : k < lines.length :=
            innerScan_lt_len (lines.length - (i + 1)) lines (i + 1) k
              (by omega) hscan
          have hstep2 : outerStep lines ⟨i, cur, out⟩ =
              ⟨k + 1, updCtx lines[i] cur,
                out ++ [replLine (updCtx lines[i] cur), closeLine]⟩ := by
            unfold outerStep
            rw [hget]
            simp only [if_pos hml, hscan]
          rw [hstep, hstep2]
          obtain ⟨ha, hb⟩ := ih lines (k + 1) (updCtx lines[i] cur)
            (out ++ [replLine (updCtx lines[i] cur), closeLine]) (by omega)
          refine ⟨ha, ?_⟩
          rw [hb, hdrop, run_false_cons, if_pos hml]
          rw [run_drop_true (lines.length - (i + 1)) lines (i + 1) _ (by omega),
            hscan]
          simp
        | none =>
          have hstep2 : outerStep lines ⟨i, cur, out⟩ =
              ⟨lines.length + 1, updCtx lines[i] cur,
                out ++ [replLine (updCtx lines[i] cur)]⟩ := by
            unfold outerStep
            rw [hget]
            simp only [if_pos hml, hscan]
          rw [hstep, hstep2]
          obtain ⟨ha, hb⟩ := ih lines (lines.length + 1) (updCtx lines[i] cur)
            (out ++ [replLine (updCtx lines[i] cur)]) (by omega)
          refine ⟨ha, ?_⟩
          rw [hb, hdrop, run_false_cons, if_pos hml]
          rw [run_drop_true (lines.length - (i + 1)) lines (i + 1) _ (by omega),
            hscan]
          rw [List.drop_eq_nil_of_le (by omega), run_nil]
          simp
      · have hstep2 : outerStep lines ⟨i, cur, out⟩ =
            ⟨i + 1, updCtx lines[i] cur, out ++ [lines[i]]⟩ := by
          unfold outerStep
          rw [hget]
          simp only [if_neg hml]
        rw [hstep, hstep2]
        obtain ⟨ha, hb⟩ := ih lines (i + 1) (updCtx lines[i] cur)
          (out ++ [lines[i]]) (by omega)
        refine ⟨ha, ?_⟩
        rw [hb, hdrop, run_false_cons, if_neg hml]
        simp
    · have : loopRun lines (f + 1) ⟨i, cur, out⟩ = ⟨i, cur, out⟩ := by
        have hu : loopRun lines (f + 1) ⟨i, cur, out⟩ =
            if i < lines.length then
              loopRun lines f (outerStep lines ⟨i, cur, out⟩)
            else ⟨i, cur, out⟩ := rfl
        rw [hu, if_neg hi]
      rw [this]
      show lines.length ≤ i ∧ out = out ++ run (lines.drop i) cur false
      rw [List.drop_eq_nil_of_le (by omega), run_nil, List.append_nil]
      exact ⟨by omega, rfl⟩

/-- The outer-loop index strictly increases at every iteration taken. -/
theorem outerStep_increases (lines : List String) (s : St)
    (h : s.i < lines.length) : s.i < (outerStep lines s).i := by
  unfold outerStep
  by_cases hml : isMalformed (lines.getD s.i (String.mk [])) = true
  · cases hscan : innerScan lines (s.i + 1) with
    | some k =>
      have := innerScan_gt (lines.length - (s.i + 1)) lines (s.i + 1) k
        (by omega) hscan
      simp only [if_pos hml, hscan]
      omega
    | none =>
      simp only [if_pos hml, hscan]
      omega
  · simp only [if_neg hml]
    omega

/-! Concrete lines used by the witnesses. -/

/-- A malformed trigger line (the bad call fragment with leading spaces). -/
def trigLine : String := "    handleControllerError(error, res, " ++ sqs ++ ","

/-- A lone closing-brace line with tab and space decoration. -/
def braceA : String := "\t\x7d "

/-- Another lone closing-brace line, differently decorated. -/
def braceB : String := " \x7d"

/-- A context-header line declaring the identifier getFoo. -/
def headerFoo : String := "export async function getFoo(req, res) \x7b"

/-! Claims. -/

/-- C1 counterexample: on the spec's example scenario the pass does not
produce the spec's seven expected lines; the message argument the spec
shows (Controller.getItem) differs from the one the code builds. -/
theorem c1_spec_example_refuted : fixPass exLines ≠ exSpecOut := by decide

/-- C1 (amended): on the spec's example scenario the pass produces exactly
seven lines, identical to the spec's expectation except that the
replacement line's message argument is AiPermissionController.getItem. -/
theorem c1_example_output : fixPass exLines = exCodeOut := by decide

/-- C2: when a malformed line is followed, after remnant lines containing
no adjacent pair of lone closing-brace lines, by two consecutive lone
closing-brace lines, the repair emits exactly one closing-marker line in
place of the two, resumes the scan after both (the duplicate is never
emitted), and the lone-closing-brace line counts contributed by the lines
outside the repaired region are unchanged. -/
theorem c2_brace_folding (pre : List String) (l : String) (mid : List String)
    (b1 b2 : String) (post : List String) (cur : Option String)
    (hpre : ∀ x ∈ pre, isMalformed x = false)
    (hl : isMalformed l = true)
    (hmid : noPairUpto (mid ++ [b1]) = true)
    (h1 : isLoneBrace b1 = true) (h2 : isLoneBrace b2 = true)
    (hpost : ∀ x ∈ post, isMalformed x = false) :
    run (pre ++ l :: (mid ++ b1 :: b2 :: post)) cur false =
      pre ++ replLine (updCtx l (ctxFold cur pre)) :: closeLine :: post ∧
    countBrace (run (pre ++ l :: (mid ++ b1 :: b2 :: post)) cur false) =
      countBrace pre + 1 + countBrace post := by
  have heq : run (pre ++ l :: (mid ++ b1 :: b2 :: post)) cur false =
      pre ++ replLine (updCtx l (ctxFold cur pre)) :: closeLine :: post := by
    rw [run_clean_append pre _ cur hpre, run_false_cons, if_pos hl]
    rw [run_true_finds mid b1 b2 post _ hmid h1 h2]
    rw [run_id post _ hpost]
  refine ⟨heq, ?_⟩
  rw [heq]
  unfold countBrace
  rw [List.countP_append,
    List.countP_cons_of_neg _ _ (by
      show ¬ isLoneBrace (replLine (updCtx l (ctxFold cur pre))) = true
      rw [replLine_not_lone _]
      simp),
    List.countP_cons_of_pos _ _ (by
      show isLoneBrace closeLine = true
      exact closeLine_lone)]
  omega

/-- C2 witness: a concrete instance of the brace-folding theorem. -/
theorem c2_brace_folding_witness :
    run (["before"] ++ trigLine :: (["junk"] ++ braceA :: braceB :: ["after"]))
      none false =
      ["before"] ++ replLine (updCtx trigLine (ctxFold none ["before"])) ::
        closeLine :: ["after"] ∧
    countBrace (run (["before"] ++ trigLine ::
        (["junk"] ++ braceA :: braceB :: ["after"])) none false) =
      countBrace ["before"] + 1 + countBrace ["after"] :=
  c2_brace_folding ["before"] trigLine ["junk"] braceA braceB ["after"] none
    (by decide) (by decide) (by decide) (by decide) (by decide) (by decide)

/-- C3: when a malformed line is never followed by two consecutive lone
closing-brace lines, the pass raises no error, its output ends at the
replacement line, and every original line after the trigger is absent. -/
theorem c3_truncation (pre : List String) (l : String) (rest : List String)
    (cur : Option String)
    (hpre : ∀ x ∈ pre, isMalformed x = false)
    (hl : isMalformed l = true)
    (hnp : noPairUpto rest = true) :
    run (pre ++ l :: rest) cur false =
      pre ++ [replLine (updCtx l (ctxFold cur pre))] := by
  rw [run_clean_append pre _ cur hpre, run_false_cons, if_pos hl]
  rw [run_true_misses rest _ hnp]

/-- C3 witness: a concrete truncated repair. -/
theorem c3_truncation_witness :
    run (["alpha"] ++ trigLine :: ["one", "\x7d", "two"]) none false =
      ["alpha"] ++ [replLine (updCtx trigLine (ctxFold none ["alpha"]))] :=
  c3_truncation ["alpha"] trigLine ["one", "\x7d", "two"] none
    (by decide) (by decide) (by decide)

/-- C4: the repair pass is idempotent; its output contains no line
matching the malformed signature, so a second pass copies everything. -/
theorem c4_idempotent (ls : List String) : fixPass (fixPass ls) = fixPass ls :=
  run_id (fixPass ls) none
    (fun x hx => run_out_not_malformed ls.length ls none false le_rfl ctxOk_none x hx)

/-- C5: every line outside every detected malformed region appears in the
output byte-for-byte unchanged and in the same relative order: the kept
lines form a sublist of the pass's output. -/
theorem c5_verbatim_preservation (ls : List String) :
    List.Sublist (keptLines ls false) (fixPass ls) :=
  kept_sublist ls.length ls none false le_rfl

/-- C6: a malformed line following a context header declaring getFoo-like
identifier foo, with no intervening header and no earlier malformed line,
is replaced by a line embedding exactly foo, in the fixed-prefix-dot-name
format. -/
theorem c6_context_attribution (pre : List String) (hline : String)
    (mid : List String) (l : String) (rest : List String) (foo : String)
    (cur : Option String)
    (hpre : ∀ x ∈ pre, isMalformed x = false)
    (hh : headerName hline = some foo)
    (hhm : isMalformed hline = false)
    (hmid : ∀ x ∈ mid, headerName x = none ∧ isMalformed x = false)
    (hl : isMalformed l = true)
    (hlh : headerName l = none) :
    run (pre ++ hline :: (mid ++ l :: rest)) cur false =
      pre ++ hline :: (mid ++ (replA ++ foo ++ replB) :: run rest (some foo) true) := by
  rw [run_clean_append pre _ cur hpre, run_false_cons, if_neg (by simp [hhm])]
  have hupd : updCtx hline (ctxFold cur pre) = some foo := by
    unfold updCtx
    rw [hh]
  rw [hupd]
  rw [run_clean_append mid _ (some foo) (fun x hx => (hmid x hx).2)]
  rw [ctxFold_of_no_header mid (some foo) (fun x hx => (hmid x hx).1)]
  rw [run_false_cons, if_pos hl]
  have hupd2 : updCtx l (some foo) = some foo := by
    unfold updCtx
    rw [hlh]
  rw [hupd2]
  rfl

/-- C6 witness: a concrete attribution to the header name getFoo. -/
theorem c6_context_attribution_witness :
    run (["zero"] ++ headerFoo :: (["  mid"] ++ trigLine :: ["tail"])) none false =
      ["zero"] ++ headerFoo :: (["  mid"] ++
        (replA ++ "getFoo" ++ replB) :: run ["tail"] (some "getFoo") true) :=
  c6_context_attribution ["zero"] headerFoo ["  mid"] trigLine ["tail"]
    "getFoo" none (by decide) (by decide) (by decide) (by decide)
    (by decide) (by decide)

/-- C7: the input lines split into a concatenation of segments, each a
single verbatim-copied line or the whole line block of one repaired
region, so every line belongs to exactly one segment and no line is
consumed by two repairs; the verbatim segments are exactly the kept lines
and appear unchanged, in order, in the output. -/
theorem c7_partition (ls : List String) :
    segJoin (segsAux ls false []) = ls ∧
    segLefts (segsAux ls false []) = keptLines ls false ∧
    List.Sublist (keptLines ls false) (fixPass ls) := by
  refine ⟨?_, ?_, kept_sublist ls.length ls none false le_rfl⟩
  · have := segJoin_segsAux ls.length ls false [] le_rfl
    simpa using this
  · exact segLefts_segsAux ls.length ls false [] le_rfl

/-- C8: when the first malformed line comes before any context header,
the repair still happens and the replacement line's message argument is
exactly AiPermissionController.None, rendering the null context as the
text None. -/
theorem c8_null_context (pre : List String) (l : String) (rest : List String)
    (hpre : ∀ x ∈ pre, isMalformed x = false ∧ headerName x = none)
    (hl : isMalformed l = true)
    (hlh : headerName l = none) :
    fixPass (pre ++ l :: rest) =
      pre ++ replLine none :: run rest none true ∧
    replLine none = "    handleControllerError(error, res, " ++ sqs ++
      "AiPermissionController.None" ++ sqs ++ ");" := by
  constructor
  · unfold fixPass
    rw [run_clean_append pre _ none (fun x hx => (hpre x hx).1)]
    rw [ctxFold_of_no_header pre none (fun x hx => (hpre x hx).2)]
    rw [run_false_cons, if_pos hl]
    have : updCtx l none = none := by
      unfold updCtx
      rw [hlh]
    rw [this]
  · decide

/-- C8 witness: a concrete repair before any header. -/
theorem c8_null_context_witness :
    fixPass (["plain"] ++ trigLine :: ["x"]) =
      ["plain"] ++ replLine none :: run ["x"] none true ∧
    replLine none = "    handleControllerError(error, res, " ++ sqs ++
      "AiPermissionController.None" ++ sqs ++ ");" :=
  c8_null_context ["plain"] trigLine ["x"] (by decide) (by decide) (by decide)

/-- C9: the two synthesized lines have fixed indentation independent of
the input: the replacement line starts with exactly four spaces (its
fifth character is the letter h), and the folded closing-marker line is
exactly two spaces followed by a closing brace, whatever whitespace
decorated the two consumed marker lines. -/
theorem c9_fixed_indentation (c : Option String) (b1 b2 : String)
    (rest : List String) (cur : Option String)
    (h1 : isLoneBrace b1 = true) (h2 : isLoneBrace b2 = true) :
    (replLine c).data.take 5 = ("    h").data ∧
    run (b1 :: b2 :: rest) cur true = closeLine :: run rest cur false ∧
    closeLine = "  " ++ braceStr := by
  refine ⟨?_, ?_, by decide⟩
  · rw [replLine_data, List.take_append_of_le_length (by decide)]
    decide
  · rw [run_true_cons, if_pos (by rw [h1, h2]; rfl)]

/-- C9 witness: a concrete repair completion with decorated marker lines. -/
theorem c9_fixed_indentation_witness :
    (replLine (some "weird")).data.take 5 = ("    h").data ∧
    run (braceA :: braceB :: ["r"]) none true = closeLine :: run ["r"] none false ∧
    closeLine = "  " ++ braceStr :=
  c9_fixed_indentation (some "weird") braceA braceB ["r"] none
    (by decide) (by decide)

/-- C10: the pass terminates on every finite input: the outer-loop index
strictly increases on every iteration taken, and a fuel budget equal to
the number of input lines lets the loop model finish (index past the
input) with exactly the scan's output. -/
theorem c10_terminates (lines : List String) :
    (∀ s : St, s.i < lines.length → s.i < (outerStep lines s).i) ∧
    lines.length ≤ (loopRun lines lines.length ⟨0, none, []⟩).i ∧
    (loopRun lines lines.length ⟨0, none, []⟩).out = fixPass lines := by
  obtain ⟨ha, hb⟩ := loopRun_inv lines.length lines 0 none [] (by omega)
  refine ⟨fun s hs => outerStep_increases lines s hs, ha, ?_⟩
  rw [hb]
  unfold fixPass
  rw [List.drop_zero, List.nil_append]

/-- C10 witness: on a concrete one-line input, the loop index strictly
increases from the initial state. -/
theorem c10_terminates_witness :
    (St.mk 0 none []).i < (outerStep ["x"] (St.mk 0 none [])).i :=
  (c10_terminates ["x"]).1 (St.mk 0 none []) (by decide)

end PFA
